import Mathlib

/-!
Verification of the cross-platform matching and arbitrage-scoring core of the
arbitrage_bot repository.  The Python sources embedded here are
`src/matching/normalizer.py` (TextNormalizer), `src/matching/semantic_matcher.py`
(SemanticMatcher / MatchResult) and `src/arbitrage/calculator.py`
(ArbitrageCalculator / ArbitrageResult).  Text is modelled as `List Char` and
Python floats as `ℚ` (all arithmetic in the core is exact over the rationals).
Python's regular expressions are modelled over ASCII: `\w` is `[A-Za-z0-9_]`,
`\s` is the six ASCII whitespace characters, and `str.lower` lowers only ASCII
letters; all inputs considered in the development are ASCII.  The external
`rapidfuzz.fuzz.token_sort_ratio` function and the sentence-transformer
embedder are third-party collaborators, not repository code; they are modelled
as injected function parameters of the matcher, exactly as the spec treats the
embedding provider ("an injectable capability, not a hard dependency").
-/

namespace ArbBot

/-- The space character, written via its code point. -/
def spc : Char := Char.ofNat 32

/-- Model of the regex class `\w` over ASCII: letters, digits, underscore. -/
def isWordChar (c : Char) : Bool := c.isAlphanum || c == '_'

/-- Model of the regex class `\s` over ASCII. -/
def isWsChar (c : Char) : Bool :=
  c.toNat == 32 || c.toNat == 9 || c.toNat == 10 || c.toNat == 13 ||
  c.toNat == 11 || c.toNat == 12

/-- Model of Python `str.lower` on one ASCII character. -/
def toLowerCh (c : Char) : Char :=
  if 65 ≤ c.toNat ∧ c.toNat ≤ 90 then Char.ofNat (c.toNat + 32) else c

/-- One character of `re.sub(r'[^\w\s-]', ' ', text)` (normalizer.py line 31):
characters other than word characters, whitespace and hyphen become a space. -/
def stripCh (c : Char) : Char :=
  if isWordChar c || isWsChar c || c == '-' then c else spc

/-- Characters of a string literal, the bridge from Lean strings to the
`List Char` texts used throughout. -/
def cl (s : String) : List Char := s.data

/-- Python `str.strip` on the left: drop leading whitespace. -/
def trimWs (t : List Char) : List Char :=
  ((t.dropWhile isWsChar).reverse.dropWhile isWsChar).reverse

/-- Worker for Python `str.split()` (split on whitespace runs, no empties):
`cur` holds the characters of the current word in reverse. -/
def splitWsGo : List Char → List Char → List (List Char)
  | cur, [] => if cur.isEmpty then [] else [cur.reverse]
  | cur, c :: cs =>
    if isWsChar c then
      (if cur.isEmpty then splitWsGo [] cs else cur.reverse :: splitWsGo [] cs)
    else splitWsGo (c :: cur) cs

/-- Python `str.split()` with no separator argument. -/
def splitWs (t : List Char) : List (List Char) := splitWsGo [] t

/-- Python `' '.join(words)`. -/
def joinSpace : List (List Char) → List Char
  | [] => []
  | [w] => w
  | w :: rest => w ++ spc :: joinSpace rest

/-- Worker for `re.sub(r'\s+', ' ', text)`: the flag records whether the
previous character was whitespace (a run already emitted its single space). -/
def collapseGo : Bool → List Char → List Char
  | _, [] => []
  | inWs, c :: cs =>
    if isWsChar c then
      (if inWs then collapseGo true cs else spc :: collapseGo true cs)
    else c :: collapseGo false cs

/-- `re.sub(r'\s+', ' ', text)`: collapse each whitespace run to one space. -/
def collapseWs (t : List Char) : List Char := collapseGo false t

/-- Word-character test on an optional character (`none` stands for the edge
of the text, which is never a word character). -/
def isWordOpt : Option Char → Bool
  | none => false
  | some c => isWordChar c

/-- Match of the regex `\b v \b` (with `v` a literal, as produced by
`re.escape`) at the current position of the text: `prev` is the character
just before the position, `t` the rest of the text.  A `\b` holds where the
word-character status changes. -/
def matchB (v : List Char) (prev : Option Char) (t : List Char) : Bool :=
  v.isPrefixOf t &&
  (isWordOpt prev != isWordChar (v.headD spc)) &&
  (isWordChar (v.getLastD spc) != isWordOpt (t.drop v.length).head?)

/-- Worker for `re.sub(r'\b' + re.escape(v) + r'\b', std, text)`
(normalizer.py lines 33-35).  Matches are found left to right and are
non-overlapping; `skip` counts characters of a match still to be consumed,
`prev` is the previous character of the *original* text (boundaries are
judged on the original text). -/
def subAux (v std : List Char) : Nat → Option Char → List Char → List Char
  | _, _, [] => []
  | Nat.succ skip, _, c :: cs => subAux v std skip (some c) cs
  | 0, prev, c :: cs =>
    if matchB v prev (c :: cs) then
      std ++ subAux v std (v.length - 1) (some c) cs
    else c :: subAux v std 0 (some c) cs

/-- Replace every whole-word occurrence of `v` in `t` by `std`. -/
def subAll (v std t : List Char) : List Char := subAux v std 0 none t

/-- The alias table of `TextNormalizer.__init__` flattened to the
`reverse_map` iteration order (Python dicts iterate in insertion order):
each pair is (variant, standard). -/
def aliasPairs : List (List Char × List Char) :=
  [ (cl "donald trump", cl "trump"), (cl "djt", cl "trump"),
    (cl "d. trump", cl "trump"), (cl "donald j. trump", cl "trump"),
    (cl "donald j trump", cl "trump"),
    (cl "joe biden", cl "biden"), (cl "joseph biden", cl "biden"),
    (cl "j. biden", cl "biden"),
    (cl "kamala harris", cl "harris"), (cl "k. harris", cl "harris"),
    (cl "kamala d. harris", cl "harris"),
    (cl "ron desantis", cl "desantis"), (cl "ronald desantis", cl "desantis"),
    (cl "r. desantis", cl "desantis"),
    (cl "united states", cl "us"), (cl "usa", cl "us"),
    (cl "u.s.", cl "us"), (cl "u.s.a.", cl "us"),
    (cl "united kingdom", cl "uk"), (cl "u.k.", cl "uk"),
    (cl "great britain", cl "uk"), (cl "britain", cl "uk"),
    (cl "federal reserve", cl "fed"), (cl "federal reserve bank", cl "fed"),
    (cl "gross domestic product", cl "gdp") ]

/-- The alias-replacement loop of `normalize` (lines 33-35): one `re.sub`
pass per (variant, standard) pair, in table order. -/
def applyAliases (t : List Char) : List Char :=
  aliasPairs.foldl (fun acc p => subAll p.1 p.2 acc) t

/-- The stopword set of `TextNormalizer.__init__`. -/
def stopwords : List (List Char) :=
  [ cl "the", cl "a", cl "an", cl "in", cl "on", cl "at", cl "to", cl "for",
    cl "of", cl "by", cl "with", cl "will", cl "be", cl "is", cl "are",
    cl "was", cl "were", cl "been", cl "being" ]

/-- The word filter of `normalize` (line 38): keep `w` unless it is a
stopword of length at most 3. -/
def keepWord (w : List Char) : Bool :=
  !(stopwords.contains w) || decide (w.length > 3)

/-- `TextNormalizer.normalize` (normalizer.py lines 28-44): lower-case and
strip outer whitespace, replace non-word non-hyphen characters by spaces,
apply the alias table, filter stopwords, rejoin with single spaces, collapse
whitespace and strip again. -/
def normalize (s : List Char) : List Char :=
  let t1 := trimWs (s.map toLowerCh)
  let t2 := t1.map stripCh
  let t3 := applyAliases t2
  let ws := (splitWs t3).filter keepWord
  trimWs (collapseWs (joinSpace ws))

/-- Match of `\b(20\d{2})\b` at the current position: the four characters
"2", "0", digit, digit, preceded and followed by a non-word character (or the
edge of the text). -/
def yearB (prev : Option Char) (t : List Char) : Bool :=
  match t with
  | c1 :: c2 :: c3 :: c4 :: rest =>
    c1 == '2' && c2 == '0' && c3.isDigit && c4.isDigit &&
    !(isWordOpt prev) && !(isWordOpt rest.head?)
  | _ => false

/-- `re.findall` worker for the year pattern, with the same skip-state device
as `subAux` (matches are non-overlapping, scan continues after a match). -/
def scanYears : Nat → Option Char → List Char → List (List Char)
  | _, _, [] => []
  | Nat.succ skip, _, c :: cs => scanYears skip (some c) cs
  | 0, prev, c :: cs =>
    if yearB prev (c :: cs) then
      (c :: cs).take 4 :: scanYears 3 (some c) cs
    else scanYears 0 (some c) cs

/-- First alternative of a regex alternation `\b(v1|v2|...)\b` matching at
the current position; the regex engine tries alternatives left to right and
only accepts one whose trailing boundary also holds. -/
def firstAlt (alts : List (List Char)) (prev : Option Char) (t : List Char) :
    Option (List Char) :=
  alts.find? (fun v => matchB v prev t)

/-- `re.findall` worker for an alternation of literals. -/
def scanAlts (alts : List (List Char)) : Nat → Option Char → List Char → List (List Char)
  | _, _, [] => []
  | Nat.succ skip, _, c :: cs => scanAlts alts skip (some c) cs
  | 0, prev, c :: cs =>
    match firstAlt alts prev (c :: cs) with
    | some v => v :: scanAlts alts (v.length - 1) (some c) cs
    | none => scanAlts alts 0 (some c) cs

/-- The month alternation of `extract_date_context` (normalizer.py line 52),
in the order written in the pattern. -/
def monthAlts : List (List Char) :=
  [ cl "january", cl "february", cl "march", cl "april", cl "may", cl "june",
    cl "july", cl "august", cl "september", cl "october", cl "november",
    cl "december", cl "jan", cl "feb", cl "mar", cl "apr", cl "may", cl "jun",
    cl "jul", cl "aug", cl "sep", cl "sept", cl "oct", cl "nov", cl "dec" ]

/-- The quarter alternation of `extract_date_context` (line 55); the
character class `q[1-4]` is the four literals q1..q4. -/
def quarterAlts : List (List Char) :=
  [ cl "q1", cl "q2", cl "q3", cl "q4", cl "first quarter",
    cl "second quarter", cl "third quarter", cl "fourth quarter" ]

/-- The dictionary returned by `TextNormalizer.extract_date_context`. -/
structure DateContext where
  years : List (List Char)
  months : List (List Char)
  quarters : List (List Char)
  has_date : Bool
deriving DecidableEq, Repr

/-- `TextNormalizer.extract_date_context` (normalizer.py lines 46-63): scan
the lower-cased original text for years, months and quarters; `has_date`
is set iff a year or a month was found (quarters alone do not count). -/
def extractDateContext (t : List Char) : DateContext :=
  let tl := t.map toLowerCh
  let years := scanYears 0 none tl
  let months := scanAlts monthAlts 0 none tl
  let quarters := scanAlts quarterAlts 0 none tl
  { years := years, months := months, quarters := quarters,
    has_date := !years.isEmpty || !months.isEmpty }

/-- The `Market` dataclass of `src/api/base.py`.  Prices and liquidity are
exact rationals (Python floats); the question is raw text. -/
structure Market where
  platform : String
  market_id : String
  question : List Char
  yes_price : ℚ
  no_price : ℚ
  liquidity : Option ℚ
  volume : Option ℚ
  end_date : Option Int
deriving DecidableEq, Repr

/-- The `MatchResult` class of `semantic_matcher.py`. -/
structure MatchResult where
  market_a : Market
  market_b : Market
  confidence : ℚ
  fuzzy_score : ℚ
  semantic_score : ℚ
deriving DecidableEq, Repr

/-- Post-construction state of the `SemanticMatcher` class.  The two
external collaborators are injected as functions: `fuzz` models
`rapidfuzz.fuzz.token_sort_ratio` (a third-party similarity metric over the
two normalized strings), and `embedder` models the optional
sentence-transformer: given the two normalized strings it returns the cosine
similarity of their embeddings, or `none` when the encoding step raises
(in which case the score stays 0, per lines 74-83). -/
structure SemanticMatcher where
  min_confidence : ℚ
  use_semantic : Bool
  embedder : Option (List Char → List Char → Option ℚ)
  fuzz : List Char → List Char → ℚ

/-- `SemanticMatcher._calculate_match` (semantic_matcher.py lines 55-90):
exact-normalization short-circuit, fuzzy score, date veto on differing year
lists, best-effort semantic score, and the confidence blend. -/
def calculateMatch (m : SemanticMatcher) (a b : Market) : Option MatchResult :=
  let norm_a := normalize a.question
  let norm_b := normalize b.question
  if norm_a = norm_b then
    some { market_a := a, market_b := b, confidence := 1, fuzzy_score := 100,
           semantic_score := 0 }
  else
    let fuzzy_score := m.fuzz norm_a norm_b
    let date_a := extractDateContext a.question
    let date_b := extractDateContext b.question
    if date_a.has_date = true ∧ date_b.has_date = true ∧ date_a.years ≠ date_b.years then
      none
    else
      let semantic_score : ℚ :=
        match m.use_semantic, m.embedder with
        | true, some f =>
          match f norm_a norm_b with
          | some cos => cos * 100
          | none => 0
        | _, _ => 0
      let confidence : ℚ :=
        if m.use_semantic = true ∧ semantic_score > 0 then
          (fuzzy_score * (4 / 10) + semantic_score * (6 / 10)) / 100
        else fuzzy_score / 100
      some { market_a := a, market_b := b, confidence := confidence,
             fuzzy_score := fuzzy_score, semantic_score := semantic_score }

/-- The inner loop of `match_markets` (lines 38-47): running best match and
best confidence, a candidate replaces the best only on strictly greater
confidence; the initial best confidence is 0. -/
def innerLoop (m : SemanticMatcher) (a : Market) :
    List Market → Option MatchResult × ℚ → Option MatchResult × ℚ
  | [], st => st
  | b :: rest, (best, bestConf) =>
    match calculateMatch m a b with
    | some r =>
      if r.confidence > bestConf then innerLoop m a rest (some r, r.confidence)
      else innerLoop m a rest (best, bestConf)
    | none => innerLoop m a rest (best, bestConf)

/-- One outer-loop iteration of `match_markets` (lines 38-50): the best
candidate over all of `bs`, emitted only when its confidence reaches
`min_confidence`. -/
def matchOne (m : SemanticMatcher) (a : Market) (bs : List Market) :
    Option MatchResult :=
  match innerLoop m a bs (none, 0) with
  | (some r, _) => if r.confidence ≥ m.min_confidence then some r else none
  | (none, _) => none

/-- `SemanticMatcher.match_markets` (lines 35-53): accumulate the accepted
best match of each market of the first list, in input order. -/
def matchMarkets (m : SemanticMatcher) : List Market → List Market → List MatchResult
  | [], _ => []
  | a :: rest, bs => (matchOne m a bs).toList ++ matchMarkets m rest bs

/-- The `ArbitrageResult` class of `calculator.py`. -/
structure ArbitrageResult where
  market_a : Market
  market_b : Market
  profit_pct : ℚ
  strategy : String
  cost : ℚ
  match_confidence : ℚ
deriving DecidableEq, Repr

/-- Configuration of `ArbitrageCalculator.__init__` (defaults 2.0 and 100). -/
structure ArbitrageCalculator where
  min_profit_pct : ℚ
  min_liquidity : ℚ
deriving DecidableEq, Repr

/-- The liquidity gate `market.liquidity and market.liquidity < self.min_liquidity`
(calculator.py lines 38-41).  Python truthiness makes both `None` and `0.0`
falsy, so a missing liquidity *and* a liquidity of exactly 0 short-circuit
the conjunction and escape the gate. -/
def liquidityBad (c : ArbitrageCalculator) : Option ℚ → Bool
  | none => false
  | some l => decide (l ≠ 0) && decide (l < c.min_liquidity)

/-- The scenario loop of `calculate` (lines 48-57): the accumulator holds
`some (strategy, cost, profit_pct)` of the best scenario so far, `none`
standing for the initial `best_profit = -inf`. -/
def bestLoop : List (String × ℚ) → Option (String × ℚ × ℚ) → Option (String × ℚ × ℚ)
  | [], best => best
  | (strat, cost) :: rest, best =>
    let profit_pct := (1 - cost) * 100
    let better := match best with
      | none => true
      | some (_, _, bp) => decide (profit_pct > bp)
    bestLoop rest (if better then some (strat, cost, profit_pct) else best)

/-- `ArbitrageCalculator.calculate` (calculator.py lines 23-70): price
positivity gate, price-sum band gate, liquidity gate, then the two-scenario
optimization and the minimum-profit threshold. -/
def calculate (c : ArbitrageCalculator) (a b : Market) (match_confidence : ℚ) :
    Option ArbitrageResult :=
  if a.yes_price ≤ 0 ∨ a.no_price ≤ 0 then none
  else if b.yes_price ≤ 0 ∨ b.no_price ≤ 0 then none
  else
    let sum_a := a.yes_price + a.no_price
    let sum_b := b.yes_price + b.no_price
    if sum_a < 95 / 100 ∨ sum_a > 105 / 100 ∨ sum_b < 95 / 100 ∨ sum_b > 105 / 100 then
      none
    else if liquidityBad c a.liquidity then none
    else if liquidityBad c b.liquidity then none
    else
      let scenarios := [("yes_a_no_b", a.yes_price + b.no_price),
                        ("no_a_yes_b", a.no_price + b.yes_price)]
      match bestLoop scenarios none with
      | some (strategy, cost, best_profit) =>
        if best_profit ≥ c.min_profit_pct then
          some { market_a := a, market_b := b, profit_pct := best_profit,
                 strategy := strategy, cost := cost,
                 match_confidence := match_confidence }
        else none
      | none => none

/-- Helper to build concrete markets for witnesses and counterexamples. -/
def mkMarket (pf mid q : String) (yes no : ℚ) (liq : Option ℚ) : Market :=
  { platform := pf, market_id := mid, question := cl q, yes_price := yes,
    no_price := no, liquidity := liq, volume := some 500, end_date := none }

/-- The default calculator configuration (`min_profit_pct=2.0`, `min_liquidity=100`). -/
def defaultCalc : ArbitrageCalculator := { min_profit_pct := 2, min_liquidity := 100 }

/-- Market A of the spec's worked arbitrage example (yes 0.35, no 0.65). -/
def exA : Market := mkMarket "polymarket" "a1" "Team X champion" (35/100) (65/100) (some 1000)

/-- Market B of the spec's worked arbitrage example (yes 0.62, no 0.38). -/
def exB : Market := mkMarket "kalshi" "b1" "X wins title" (62/100) (38/100) (some 1000)

/-- A market whose liquidity is present and exactly 0. -/
def zeroLiqA : Market := mkMarket "polymarket" "a2" "Team X champion" (35/100) (65/100) (some 0)

/-- A market whose liquidity is present and 50, below the default minimum 100. -/
def fiftyLiqA : Market := mkMarket "polymarket" "a3" "Team X champion" (35/100) (65/100) (some 50)

/-- A market with a zero yes-price (no real quote). -/
def zeroPriceA : Market := mkMarket "polymarket" "a4" "Team X champion" 0 (65/100) (some 1000)

/-- Characterization of `calculate`: the scenario loop on the literal
two-element scenario list reduces to one comparison, ties keeping the
first-evaluated scenario `yes_a_no_b`. -/
theorem calculate_eq (c : ArbitrageCalculator) (a b : Market) (conf : ℚ) :
    calculate c a b conf =
      if a.yes_price ≤ 0 ∨ a.no_price ≤ 0 then none
      else if b.yes_price ≤ 0 ∨ b.no_price ≤ 0 then none
      else if a.yes_price + a.no_price < 95 / 100 ∨ a.yes_price + a.no_price > 105 / 100 ∨
              b.yes_price + b.no_price < 95 / 100 ∨ b.yes_price + b.no_price > 105 / 100 then none
      else if liquidityBad c a.liquidity then none
      else if liquidityBad c b.liquidity then none
      else if (1 - (a.no_price + b.yes_price)) * 100 > (1 - (a.yes_price + b.no_price)) * 100 then
        (if (1 - (a.no_price + b.yes_price)) * 100 ≥ c.min_profit_pct then
          some { market_a := a, market_b := b,
                 profit_pct := (1 - (a.no_price + b.yes_price)) * 100,
                 strategy := "no_a_yes_b", cost := a.no_price + b.yes_price,
                 match_confidence := conf }
         else none)
      else
        (if (1 - (a.yes_price + b.no_price)) * 100 ≥ c.min_profit_pct then
          some { market_a := a, market_b := b,
                 profit_pct := (1 - (a.yes_price + b.no_price)) * 100,
                 strategy := "yes_a_no_b", cost := a.yes_price + b.no_price,
                 match_confidence := conf }
         else none) := by
  by_cases h1 : a.yes_price ≤ 0 ∨ a.no_price ≤ 0
  · simp [calculate, h1]
  by_cases h2 : b.yes_price ≤ 0 ∨ b.no_price ≤ 0
  · simp [calculate, h1, h2]
  by_cases h3 : a.yes_price + a.no_price < 95 / 100 ∨ a.yes_price + a.no_price > 105 / 100 ∨
      b.yes_price + b.no_price < 95 / 100 ∨ b.yes_price + b.no_price > 105 / 100
  · simp [calculate, h1, h2, h3]
  by_cases h4 : liquidityBad c a.liquidity
  · simp [calculate, h1, h2, h3, h4]
  by_cases h5 : liquidityBad c b.liquidity
  · simp [calculate, h1, h2, h3, h4, h5]
  by_cases hp : (1 - (a.no_price + b.yes_price)) * 100 > (1 - (a.yes_price + b.no_price)) * 100 <;>
    simp [calculate, bestLoop, h1, h2, h3, h4, h5, hp]

/-- Claim C5: `calculate` returns none whenever any of the four prices is not
strictly positive, or either market's price sum leaves the closed band
[0.95, 1.05]; the rejection is unconditional. -/
theorem c5_price_gates (c : ArbitrageCalculator) (a b : Market) (conf : ℚ)
    (h : a.yes_price ≤ 0 ∨ a.no_price ≤ 0 ∨ b.yes_price ≤ 0 ∨ b.no_price ≤ 0 ∨
         a.yes_price + a.no_price < 95 / 100 ∨ a.yes_price + a.no_price > 105 / 100 ∨
         b.yes_price + b.no_price < 95 / 100 ∨ b.yes_price + b.no_price > 105 / 100) :
    calculate c a b conf = none := by
  rw [calculate_eq]
  split
  · rfl
  split
  · rfl
  split
  · rfl
  rename_i hn1 hn2 hn3
  exfalso
  simp only [not_or, not_lt, not_le] at hn1 hn2 hn3
  rcases h with h | h | h | h | h | h | h | h <;> linarith [hn1.1, hn1.2, hn2.1, hn2.2,
    hn3.1, hn3.2.1, hn3.2.2.1, hn3.2.2.2]

/-- Witness for C5 at a concrete market with a zero yes-price. -/
theorem c5_price_gates_witness : calculate defaultCalc zeroPriceA exB 1 = none :=
  c5_price_gates defaultCalc zeroPriceA exB 1 (Or.inl (by norm_num [zeroPriceA, mkMarket]))

/-- Claim C6: past the validation gates, `calculate` compares the two fixed
scenarios, keeps `yes_a_no_b` on ties (the comparison is strict), computes
profit as (1 − cost) × 100 and applies the minimum-profit threshold; on the
spec's worked example it selects `yes_a_no_b` with profit 27 and cost 0.73. -/
theorem c6_scenario_selection (c : ArbitrageCalculator) (a b : Market) (conf : ℚ)
    (h1 : 0 < a.yes_price) (h2 : 0 < a.no_price) (h3 : 0 < b.yes_price) (h4 : 0 < b.no_price)
    (h5 : 95 / 100 ≤ a.yes_price + a.no_price) (h6 : a.yes_price + a.no_price ≤ 105 / 100)
    (h7 : 95 / 100 ≤ b.yes_price + b.no_price) (h8 : b.yes_price + b.no_price ≤ 105 / 100)
    (h9 : liquidityBad c a.liquidity = false) (h10 : liquidityBad c b.liquidity = false) :
    (calculate c a b conf =
      if (1 - (a.no_price + b.yes_price)) * 100 > (1 - (a.yes_price + b.no_price)) * 100 then
        (if (1 - (a.no_price + b.yes_price)) * 100 ≥ c.min_profit_pct then
          some { market_a := a, market_b := b,
                 profit_pct := (1 - (a.no_price + b.yes_price)) * 100,
                 strategy := "no_a_yes_b", cost := a.no_price + b.yes_price,
                 match_confidence := conf }
         else none)
      else
        (if (1 - (a.yes_price + b.no_price)) * 100 ≥ c.min_profit_pct then
          some { market_a := a, market_b := b,
                 profit_pct := (1 - (a.yes_price + b.no_price)) * 100,
                 strategy := "yes_a_no_b", cost := a.yes_price + b.no_price,
                 match_confidence := conf }
         else none)) ∧
    calculate defaultCalc exA exB (9 / 10) =
      some { market_a := exA, market_b := exB, profit_pct := 27,
             strategy := "yes_a_no_b", cost := 73 / 100, match_confidence := 9 / 10 } := by
  constructor
  · rw [calculate_eq]
    rw [if_neg (by simp only [not_or, not_le]; exact ⟨h1, h2⟩)]
    rw [if_neg (by simp only [not_or, not_le]; exact ⟨h3, h4⟩)]
    rw [if_neg (by simp only [not_or, not_lt]; exact ⟨h5, h6, h7, h8⟩)]
    rw [if_neg (by simp [h9]), if_neg (by simp [h10])]
  · rw [calculate_eq]
    norm_num [exA, exB, mkMarket, defaultCalc, liquidityBad]

/-- Witness for C6: the worked example itself, with every gate hypothesis
discharged at the concrete markets. -/
theorem c6_scenario_selection_witness :
    calculate defaultCalc exA exB (9 / 10) =
      some { market_a := exA, market_b := exB, profit_pct := 27,
             strategy := "yes_a_no_b", cost := 73 / 100, match_confidence := 9 / 10 } :=
  (c6_scenario_selection defaultCalc exA exB (9 / 10)
    (by norm_num [exA, mkMarket]) (by norm_num [exA, mkMarket])
    (by norm_num [exB, mkMarket]) (by norm_num [exB, mkMarket])
    (by norm_num [exA, mkMarket]) (by norm_num [exA, mkMarket])
    (by norm_num [exB, mkMarket]) (by norm_num [exB, mkMarket])
    (by norm_num [exA, mkMarket, defaultCalc, liquidityBad])
    (by norm_num [exB, mkMarket, defaultCalc, liquidityBad])).2

/-- Claim C9: every returned `ArbitrageResult` is internally consistent:
profit is (1 − cost) × 100, the profit meets the configured minimum, the
match confidence is passed through, and the cost matches the strategy tag. -/
theorem c9_result_invariants (c : ArbitrageCalculator) (a b : Market) (conf : ℚ)
    (r : ArbitrageResult) (h : calculate c a b conf = some r) :
    r.profit_pct = (1 - r.cost) * 100 ∧ c.min_profit_pct ≤ r.profit_pct ∧
    r.match_confidence = conf ∧
    (r.strategy = "yes_a_no_b" → r.cost = a.yes_price + b.no_price) ∧
    (r.strategy = "no_a_yes_b" → r.cost = a.no_price + b.yes_price) := by
  rw [calculate_eq] at h
  split at h
  · exact absurd h (by simp)
  split at h
  · exact absurd h (by simp)
  split at h
  · exact absurd h (by simp)
  split at h
  · exact absurd h (by simp)
  split at h
  · exact absurd h (by simp)
  split at h
  · split at h
    · rename_i hprofit
      rw [Option.some_inj] at h
      subst h
      refine ⟨rfl, hprofit, rfl, ?_, fun _ => rfl⟩
      intro hs
      simp at hs
    · exact absurd h (by simp)
  · split at h
    · rename_i hprofit
      rw [Option.some_inj] at h
      subst h
      refine ⟨rfl, hprofit, rfl, fun _ => rfl, ?_⟩
      intro hs
      simp at hs
    · exact absurd h (by simp)

/-- Witness for C9 at the worked arbitrage example. -/
theorem c9_result_invariants_witness :
    (27 : ℚ) = (1 - (73 / 100 : ℚ)) * 100 ∧ defaultCalc.min_profit_pct ≤ (27 : ℚ) :=
  by
    have h := c9_result_invariants defaultCalc exA exB (9 / 10)
      { market_a := exA, market_b := exB, profit_pct := 27, strategy := "yes_a_no_b",
        cost := 73 / 100, match_confidence := 9 / 10 }
      (by rw [calculate_eq]; norm_num [exA, exB, mkMarket, defaultCalc, liquidityBad])
    exact ⟨h.1, h.2.1⟩

/-- Claim C2 (code bug): the liquidity gate uses Python truthiness, so a
market whose liquidity is present and exactly 0 — strictly below the
configured minimum of 100 — is *not* rejected, while the same market with
liquidity 50 is; the claim (and the spec) say every present below-minimum
liquidity is rejected.  The theorem evaluates `calculate` at the failing
input. -/
theorem c2_zero_liquidity_passes_gate :
    zeroLiqA.liquidity = some 0 ∧ (0 : ℚ) < defaultCalc.min_liquidity ∧
    calculate defaultCalc zeroLiqA exB 1 =
      some { market_a := zeroLiqA, market_b := exB, profit_pct := 27,
             strategy := "yes_a_no_b", cost := 73 / 100, match_confidence := 1 } ∧
    calculate defaultCalc fiftyLiqA exB 1 = none := by
  refine ⟨rfl, by norm_num [defaultCalc], ?_, ?_⟩
  · rw [calculate_eq]
    norm_num [zeroLiqA, exB, mkMarket, defaultCalc, liquidityBad]
  · rw [calculate_eq]
    norm_num [fiftyLiqA, exB, mkMarket, defaultCalc, liquidityBad]

/-- A fuzzy-only matcher whose injected token-sort-ratio function reports the
maximal similarity 100 for every pair. -/
def m0 : SemanticMatcher :=
  { min_confidence := 8 / 10, use_semantic := false, embedder := none,
    fuzz := fun _ _ => 100 }

/-- Markets naming the same two years in different order. -/
def dmA : Market := mkMarket "polymarket" "d1" "Election 2024 2025" (50/100) (50/100) (some 1000)

/-- See `dmA`: same years, opposite order of occurrence. -/
def dmB : Market := mkMarket "kalshi" "d2" "Election 2025 2024" (50/100) (50/100) (some 1000)

/-- Markets with the same single year (different months). -/
def dmC : Market := mkMarket "polymarket" "d3" "Election May 2024" (50/100) (50/100) (some 1000)

/-- See `dmC`. -/
def dmD : Market := mkMarket "kalshi" "d4" "Election June 2024" (50/100) (50/100) (some 1000)

/-- Counterexample to claim C1: both markets have a detected date and *equal
year sets* ({2024, 2025}), so per the claim the date context must not cause
rejection; but the code compares the year *lists* (order and multiplicity
included) with `!=`, so `_calculate_match` returns none — even though the
injected fuzzy score is 100. -/
theorem c1_counterexample :
    (extractDateContext dmA.question).has_date = true ∧
    (extractDateContext dmB.question).has_date = true ∧
    (extractDateContext dmA.question).years.toFinset =
      (extractDateContext dmB.question).years.toFinset ∧
    m0.fuzz (normalize dmA.question) (normalize dmB.question) = 100 ∧
    calculateMatch m0 dmA dmB = none := by
  refine ⟨by decide, by decide, by decide, rfl, ?_⟩
  have h1 : normalize dmA.question ≠ normalize dmB.question := by decide
  have h2 : (extractDateContext dmA.question).has_date = true ∧
      (extractDateContext dmB.question).has_date = true ∧
      (extractDateContext dmA.question).years ≠ (extractDateContext dmB.question).years := by
    decide
  simp only [calculateMatch, if_neg h1, if_pos h2]

/-- Claim C1 as amended: for two markets that both carry a detected date,
the veto in `_calculate_match` is keyed on equality of the year *lists*
(order and multiplicity significant), not year sets, and it applies only
when the normalized questions differ; identical normalized questions
short-circuit to a confidence-1.0 match before the date check. -/
theorem c1_year_list_veto (m : SemanticMatcher) (a b : Market)
    (ha : (extractDateContext a.question).has_date = true)
    (hb : (extractDateContext b.question).has_date = true) :
    (normalize a.question = normalize b.question →
      calculateMatch m a b = some { market_a := a, market_b := b, confidence := 1,
                                    fuzzy_score := 100, semantic_score := 0 }) ∧
    (normalize a.question ≠ normalize b.question →
      (calculateMatch m a b = none ↔
        (extractDateContext a.question).years ≠ (extractDateContext b.question).years)) := by
  constructor
  · intro he
    simp only [calculateMatch, if_pos he]
  · intro hne
    by_cases hy : (extractDateContext a.question).years = (extractDateContext b.question).years
    · simp [calculateMatch, if_neg hne, ha, hb, hy]
    · simp [calculateMatch, if_neg hne, ha, hb, hy]

/-- Witness for the amended C1: markets sharing the single year 2024 (equal
year lists) are not vetoed even though their questions differ. -/
theorem c1_year_list_veto_witness : calculateMatch m0 dmC dmD ≠ none := by
  intro h
  have h2 := ((c1_year_list_veto m0 dmC dmD (by decide) (by decide)).2 (by decide)).mp h
  exact h2 (by decide)

/-- A semantic matcher whose embedder reports cosine similarity −1 for every
pair (a legal cosine value), and whose fuzzy metric reports 80. -/
def m1 : SemanticMatcher :=
  { min_confidence := 1 / 2, use_semantic := true,
    embedder := some (fun _ _ => some (-1)), fuzz := fun _ _ => 80 }

/-- A date-free market for the blend counterexample. -/
def smA : Market := mkMarket "polymarket" "s1" "gdp grows fast" (50/100) (50/100) (some 1000)

/-- See `smA`. -/
def smB : Market := mkMarket "kalshi" "s2" "gdp shrinks" (50/100) (50/100) (some 1000)

/-- Counterexample to claim C8: semantic scoring was attempted and produced
the *nonzero* score −100, yet the returned confidence is the fuzzy-only
80/100, not the blend (80·0.4 + (−100)·0.6)/100 = −28/100: the code blends
only for strictly positive semantic scores (`semantic_score > 0`). -/
theorem c8_counterexample :
    calculateMatch m1 smA smB =
      some { market_a := smA, market_b := smB, confidence := 80 / 100,
             fuzzy_score := 80, semantic_score := -100 } ∧
    (-100 : ℚ) ≠ 0 ∧
    (80 / 100 : ℚ) ≠ (80 * (4 / 10) + (-100) * (6 / 10)) / 100 := by
  refine ⟨?_, by norm_num, by norm_num⟩
  have h1 : normalize smA.question ≠ normalize smB.question := by decide
  have h2 : ¬((extractDateContext smA.question).has_date = true ∧
      (extractDateContext smB.question).has_date = true ∧
      (extractDateContext smA.question).years ≠ (extractDateContext smB.question).years) := by
    decide
  simp only [calculateMatch, if_neg h1, if_neg h2, m1]
  norm_num

/-- Claim C8 as amended: the returned confidence is the 0.4/0.6 blend
exactly when semantic scoring is enabled and produced a *strictly positive*
score; otherwise (disabled, failed, zero, or negative score) it is the
fuzzy score divided by 100. -/
theorem c8_confidence_blend (m : SemanticMatcher) (a b : Market) (r : MatchResult)
    (h : calculateMatch m a b = some r) :
    r.confidence =
      if m.use_semantic = true ∧ 0 < r.semantic_score then
        (r.fuzzy_score * (4 / 10) + r.semantic_score * (6 / 10)) / 100
      else r.fuzzy_score / 100 := by
  by_cases he : normalize a.question = normalize b.question
  · simp only [calculateMatch] at h
    rw [if_pos he, Option.some_inj] at h
    subst h
    norm_num
  · simp only [calculateMatch] at h
    rw [if_neg he] at h
    by_cases hv : (extractDateContext a.question).has_date = true ∧
        (extractDateContext b.question).has_date = true ∧
        (extractDateContext a.question).years ≠ (extractDateContext b.question).years
    · rw [if_pos hv] at h
      exact absurd h (by simp)
    · rw [if_neg hv, Option.some_inj] at h
      subst h
      by_cases hc : m.use_semantic = true <;> simp [hc]

/-- `_calculate_match` always stores its first argument as `market_a`. -/
theorem calculateMatch_market_a (m : SemanticMatcher) (a b : Market) (r : MatchResult)
    (h : calculateMatch m a b = some r) : r.market_a = a := by
  by_cases he : normalize a.question = normalize b.question
  · simp only [calculateMatch] at h
    rw [if_pos he, Option.some_inj] at h
    subst h
    rfl
  · simp only [calculateMatch] at h
    rw [if_neg he] at h
    by_cases hv : (extractDateContext a.question).has_date = true ∧
        (extractDateContext b.question).has_date = true ∧
        (extractDateContext a.question).years ≠ (extractDateContext b.question).years
    · rw [if_pos hv] at h
      exact absurd h (by simp)
    · rw [if_neg hv, Option.some_inj] at h
      subst h
      rfl

/-- The inner loop preserves the invariant that the running best match (when
present) came from a `_calculate_match` call for market `a`. -/
theorem innerLoop_fst_market_a (m : SemanticMatcher) (a : Market) :
    ∀ (bs : List Market) (best : Option MatchResult) (bc : ℚ),
      (∀ r, best = some r → r.market_a = a) →
      ∀ r, (innerLoop m a bs (best, bc)).1 = some r → r.market_a = a := by
  intro bs
  induction bs with
  | nil => intro best bc hbest r h; exact hbest r h
  | cons b rest ih =>
    intro best bc hbest r h
    simp only [innerLoop] at h
    cases hcb : calculateMatch m a b with
    | none =>
      simp only [hcb] at h
      exact ih best bc hbest r h
    | some rr =>
      simp only [hcb] at h
      by_cases hgt : rr.confidence > bc
      · rw [if_pos hgt] at h
        refine ih (some rr) rr.confidence ?_ r h
        intro r' hr'
        rw [Option.some_inj] at hr'
        exact hr' ▸ calculateMatch_market_a m a b rr hcb
      · rw [if_neg hgt] at h
        exact ih best bc hbest r h

/-- An emitted per-A match carries the A market it was computed for. -/
theorem matchOne_market_a (m : SemanticMatcher) (a : Market) (bs : List Market)
    (r : MatchResult) (h : matchOne m a bs = some r) : r.market_a = a := by
  cases hil : innerLoop m a bs (none, 0) with
  | mk fst snd =>
    cases fst with
    | none =>
      simp only [matchOne, hil] at h
      exact absurd h (by simp)
    | some rr =>
      simp only [matchOne, hil] at h
      by_cases hge : rr.confidence ≥ m.min_confidence
      · rw [if_pos hge, Option.some_inj] at h
        subst h
        exact innerLoop_fst_market_a m a bs none 0 (fun r' hr' => by cases hr') rr
          (by rw [hil])
      · rw [if_neg hge] at h
        exact absurd h (by simp)

/-- An emitted per-A match passed the minimum-confidence test. -/
theorem matchOne_min_confidence (m : SemanticMatcher) (a : Market) (bs : List Market)
    (r : MatchResult) (h : matchOne m a bs = some r) : m.min_confidence ≤ r.confidence := by
  cases hil : innerLoop m a bs (none, 0) with
  | mk fst snd =>
    cases fst with
    | none =>
      simp only [matchOne, hil] at h
      exact absurd h (by simp)
    | some rr =>
      simp only [matchOne, hil] at h
      by_cases hge : rr.confidence ≥ m.min_confidence
      · rw [if_pos hge, Option.some_inj] at h
        subst h
        exact hge
      · rw [if_neg hge] at h
        exact absurd h (by simp)

/-- The outer loop of `match_markets` is a `filterMap` of the per-A search
over the first list. -/
theorem matchMarkets_eq_filterMap (m : SemanticMatcher) (bs : List Market) :
    ∀ as : List Market, matchMarkets m as bs = as.filterMap (fun a => matchOne m a bs) := by
  intro as
  induction as with
  | nil => rfl
  | cons a rest ih =>
    simp only [matchMarkets, List.filterMap_cons]
    cases h : matchOne m a bs <;> simp [h, ih]

/-- Two distinct A markets normalizing like `shB`. -/
def shA1 : Market := mkMarket "polymarket" "r1" "x wins" (50/100) (50/100) (some 1000)

/-- See `shA1`. -/
def shA2 : Market := mkMarket "polymarket" "r2" "x wins!" (50/100) (50/100) (some 1000)

/-- The single B market reused by both `shA1` and `shA2`. -/
def shB : Market := mkMarket "kalshi" "r3" "x wins" (50/100) (50/100) (some 1000)

/-- The match emitted for `shA1` against `shB` (exact-normalization match). -/
def shR1 : MatchResult :=
  { market_a := shA1, market_b := shB, confidence := 1, fuzzy_score := 100, semantic_score := 0 }

/-- The match emitted for `shA2` against `shB`. -/
def shR2 : MatchResult :=
  { market_a := shA2, market_b := shB, confidence := 1, fuzzy_score := 100, semantic_score := 0 }

/-- Concrete evaluation: `match_markets` emits one result per A market and
reuses the same B market in both. -/
theorem matchMarkets_share_eval : matchMarkets m0 [shA1, shA2] [shB] = [shR1, shR2] := by
  have e1 : calculateMatch m0 shA1 shB = some shR1 := by
    simp only [calculateMatch]
    rw [if_pos (by decide)]
    rfl
  have e2 : calculateMatch m0 shA2 shB = some shR2 := by
    simp only [calculateMatch]
    rw [if_pos (by decide)]
    rfl
  have i1 : innerLoop m0 shA1 [shB] (none, 0) = (some shR1, shR1.confidence) := by
    simp only [innerLoop, e1]
    rw [if_pos (by norm_num [shR1])]
  have i2 : innerLoop m0 shA2 [shB] (none, 0) = (some shR2, shR2.confidence) := by
    simp only [innerLoop, e2]
    rw [if_pos (by norm_num [shR2])]
  have o1 : matchOne m0 shA1 [shB] = some shR1 := by
    simp only [matchOne, i1]
    rw [if_pos (by norm_num [shR1, m0])]
  have o2 : matchOne m0 shA2 [shB] = some shR2 := by
    simp only [matchOne, i2]
    rw [if_pos (by norm_num [shR2, m0])]
  simp [matchMarkets, o1, o2]

/-- Claim C7: `match_markets` emits at most one result per A market, every
result meets the minimum confidence, the output is the in-order `filterMap`
of the per-A search (so result order follows A's input order and each result
carries its A market), and a single B market may be reused by several A
markets (shown on a concrete pair of A markets sharing `shB`). -/
theorem c7_match_markets_shape (m : SemanticMatcher) (as bs : List Market) :
    (matchMarkets m as bs).length ≤ as.length ∧
    (∀ r ∈ matchMarkets m as bs, m.min_confidence ≤ r.confidence) ∧
    matchMarkets m as bs = as.filterMap (fun a => matchOne m a bs) ∧
    (∀ (a : Market) (r : MatchResult), matchOne m a bs = some r → r.market_a = a) ∧
    (matchMarkets m0 [shA1, shA2] [shB] = [shR1, shR2] ∧
      shR1.market_b = shB ∧ shR2.market_b = shB ∧ shA1 ≠ shA2) := by
  refine ⟨?_, ?_, matchMarkets_eq_filterMap m bs as, ?_, matchMarkets_share_eval, rfl, rfl, by decide⟩
  · rw [matchMarkets_eq_filterMap m bs as]
    exact List.length_filterMap_le _ _
  · intro r hr
    rw [matchMarkets_eq_filterMap m bs as, List.mem_filterMap] at hr
    obtain ⟨a, _, ha⟩ := hr
    exact matchOne_min_confidence m a bs r ha
  · intro a r h
    exact matchOne_market_a m a bs r h

/-- Witness for C7 at the concrete shared-B instance. -/
theorem c7_match_markets_shape_witness : m0.min_confidence ≤ shR1.confidence :=
  (c7_match_markets_shape m0 [shA1, shA2] [shB]).2.1 shR1
    (by rw [matchMarkets_share_eval]; exact List.mem_cons_self _ _)

/-- The inner loop leaves its state unchanged while no candidate strictly
beats the running best confidence. -/
theorem innerLoop_no_improve (m : SemanticMatcher) (a : Market) :
    ∀ (bs : List Market) (best : Option MatchResult) (bc : ℚ),
      (∀ b ∈ bs, ∀ r, calculateMatch m a b = some r → r.confidence ≤ bc) →
      innerLoop m a bs (best, bc) = (best, bc) := by
  intro bs
  induction bs with
  | nil => intro best bc _; rfl
  | cons b rest ih =>
    intro best bc h
    simp only [innerLoop]
    cases hcb : calculateMatch m a b with
    | none => exact ih best bc (fun b' hb' => h b' (List.mem_cons_of_mem _ hb'))
    | some r =>
      dsimp only
      have hle : r.confidence ≤ bc := h b (List.mem_cons_self _ _) r hcb
      rw [if_neg (not_lt.mpr hle)]
      exact ih best bc (fun b' hb' => h b' (List.mem_cons_of_mem _ hb'))

/-- The running best confidence stays below a bound that every candidate's
confidence stays below. -/
theorem innerLoop_snd_lt (m : SemanticMatcher) (a : Market) (cnf : ℚ) :
    ∀ (bs : List Market) (best : Option MatchResult) (bc : ℚ), bc < cnf →
      (∀ b ∈ bs, ∀ r, calculateMatch m a b = some r → r.confidence < cnf) →
      (innerLoop m a bs (best, bc)).2 < cnf := by
  intro bs
  induction bs with
  | nil => intro best bc hbc _; exact hbc
  | cons b rest ih =>
    intro best bc hbc h
    simp only [innerLoop]
    cases hcb : calculateMatch m a b with
    | none => exact ih best bc hbc (fun b' hb' => h b' (List.mem_cons_of_mem _ hb'))
    | some r =>
      dsimp only
      by_cases hgt : r.confidence > bc
      · rw [if_pos hgt]
        exact ih (some r) r.confidence (h b (List.mem_cons_self _ _) r hcb)
          (fun b' hb' => h b' (List.mem_cons_of_mem _ hb'))
      · rw [if_neg hgt]
        exact ih best bc hbc (fun b' hb' => h b' (List.mem_cons_of_mem _ hb'))

/-- The inner loop processes a concatenation left to right. -/
theorem innerLoop_append (m : SemanticMatcher) (a : Market) :
    ∀ (xs ys : List Market) (st : Option MatchResult × ℚ),
      innerLoop m a (xs ++ ys) st = innerLoop m a ys (innerLoop m a xs st) := by
  intro xs
  induction xs with
  | nil => intro ys st; rfl
  | cons x rest ih =>
    rintro ys ⟨best, bc⟩
    simp only [List.cons_append, innerLoop]
    cases hcb : calculateMatch m a x with
    | none => exact ih ys (best, bc)
    | some r =>
      dsimp only
      by_cases hgt : r.confidence > bc
      · simp only [if_pos hgt]
        exact ih ys (some r, r.confidence)
      · simp only [if_neg hgt]
        exact ih ys (best, bc)

/-- Claim C10: with the strictly-greater replacement rule, the first B market
attaining the maximal (positive) confidence is the one kept — later
candidates of equal confidence never replace it — and when every candidate's
confidence is at most 0 no match is emitted, whatever `min_confidence` is
(the running best starts at 0 and is only replaced on strict improvement). -/
theorem c10_first_max_and_zero (m : SemanticMatcher) (a : Market) :
    (∀ (bs1 : List Market) (b : Market) (bs2 : List Market) (r : MatchResult),
      calculateMatch m a b = some r → 0 < r.confidence →
      (∀ b1 ∈ bs1, ∀ r1, calculateMatch m a b1 = some r1 → r1.confidence < r.confidence) →
      (∀ b2 ∈ bs2, ∀ r2, calculateMatch m a b2 = some r2 → r2.confidence ≤ r.confidence) →
      innerLoop m a (bs1 ++ b :: bs2) (none, 0) = (some r, r.confidence) ∧
      (m.min_confidence ≤ r.confidence → matchOne m a (bs1 ++ b :: bs2) = some r)) ∧
    (∀ bs : List Market,
      (∀ b ∈ bs, ∀ r, calculateMatch m a b = some r → r.confidence ≤ 0) →
      matchOne m a bs = none) := by
  constructor
  · intro bs1 b bs2 r hcb hpos hlt hle
    have hmain : innerLoop m a (bs1 ++ b :: bs2) (none, 0) = (some r, r.confidence) := by
      rw [innerLoop_append]
      have h1 := innerLoop_snd_lt m a r.confidence bs1 none 0 hpos hlt
      cases hst : innerLoop m a bs1 (none, 0) with
      | mk best1 bc1 =>
        have h2 : r.confidence > bc1 := by rw [hst] at h1; exact h1
        simp only [innerLoop, hcb]
        rw [if_pos h2]
        exact innerLoop_no_improve m a bs2 (some r) r.confidence hle
    refine ⟨hmain, fun hmin => ?_⟩
    simp only [matchOne, hmain]
    rw [if_pos hmin]
  · intro bs h
    simp only [matchOne, innerLoop_no_improve m a bs none 0 h]

/-- A matcher with `min_confidence` 0 and a fuzzy metric reporting 0. -/
def mZ : SemanticMatcher :=
  { min_confidence := 0, use_semantic := false, embedder := none, fuzz := fun _ _ => 0 }

/-- A-side market for the zero-confidence witness. -/
def zqA : Market := mkMarket "polymarket" "z1" "aaa bbb" (50/100) (50/100) (some 1000)

/-- B-side market for the zero-confidence witness. -/
def zqB : Market := mkMarket "kalshi" "z2" "ccc ddd" (50/100) (50/100) (some 1000)

/-- Witness for C10: with `min_confidence = 0` and a candidate of confidence
exactly 0, no match is emitted. -/
theorem c10_first_max_and_zero_witness : matchOne mZ zqA [zqB] = none := by
  refine (c10_first_max_and_zero mZ zqA).2 [zqB] ?_
  intro b hb r h
  simp only [List.mem_singleton] at hb
  subst hb
  have h1 : normalize zqA.question ≠ normalize zqB.question := by decide
  have h2 : ¬((extractDateContext zqA.question).has_date = true ∧
      (extractDateContext zqB.question).has_date = true ∧
      (extractDateContext zqA.question).years ≠ (extractDateContext zqB.question).years) := by
    decide
  simp only [calculateMatch, if_neg h1, if_neg h2, mZ] at h
  rw [Option.some_inj] at h
  subst h
  norm_num

/-- Witness for the amended C8 at the concrete negative-cosine matcher. -/
theorem c8_confidence_blend_witness :
    ({ market_a := smA, market_b := smB, confidence := 80 / 100, fuzzy_score := 80,
       semantic_score := -100 } : MatchResult).confidence =
      if m1.use_semantic = true ∧
          0 < ({ market_a := smA, market_b := smB, confidence := 80 / 100, fuzzy_score := 80,
                 semantic_score := -100 } : MatchResult).semantic_score then
        (80 * (4 / 10) + (-100) * (6 / 10)) / 100
      else 80 / 100 := by
  have h := c8_confidence_blend m1 smA smB
    { market_a := smA, market_b := smB, confidence := 80 / 100, fuzzy_score := 80,
      semantic_score := -100 }
    (by
      have h1 : normalize smA.question ≠ normalize smB.question := by decide
      have h2 : ¬((extractDateContext smA.question).has_date = true ∧
          (extractDateContext smB.question).has_date = true ∧
          (extractDateContext smA.question).years ≠ (extractDateContext smB.question).years) := by
        decide
      simp only [calculateMatch, if_neg h1, if_neg h2, m1]
      norm_num)
  exact h

/-- `stripCh` never produces a period: a period is not a word character,
whitespace or hyphen, so it becomes a space, and kept characters are not
periods. -/
theorem stripCh_ne_dot (c : Char) : stripCh c ≠ '.' := by
  by_cases hc : c = '.'
  · subst hc
    decide
  · unfold stripCh
    split
    · exact hc
    · decide

/-- Characters of a prefix are characters of the whole list. -/
theorem mem_of_isPrefixOf {v t : List Char} (h : v.isPrefixOf t = true) :
    ∀ c ∈ v, c ∈ t :=
  fun _ hc => (List.isPrefixOf_iff_prefix.mp h).subset hc

/-- A substitution pass whose pattern contains a character absent from the
text never fires: the text is returned unchanged. -/
theorem subAux_eq_of_not_mem (v std : List Char) (x : Char) (hv : x ∈ v) :
    ∀ (t : List Char) (prev : Option Char), (∀ c ∈ t, c ≠ x) →
      subAux v std 0 prev t = t := by
  intro t
  induction t with
  | nil => intro prev _; rfl
  | cons c cs ih =>
    intro prev h
    have hm : matchB v prev (c :: cs) = false := by
      cases hp : v.isPrefixOf (c :: cs) with
      | false => simp [matchB, hp]
      | true => exact absurd rfl (h x (mem_of_isPrefixOf hp x hv))
    simp only [subAux, hm, Bool.false_eq_true, if_false]
    rw [ih (some c) (fun c' hc' => h c' (List.mem_cons_of_mem _ hc'))]

/-- Claim C4 as amended: aliases are replaced by whole-word matching, but
the replacement runs *after* punctuation stripping, so dot-free variants
("united states", "usa") are canonicalized to "us" while every variant
containing a period ("u.s.", "u.s.a.", "d. trump", ...) is dead: no period
survives the strip, so such a pattern can never fire, and "u.s." itself
normalizes to "u s", not to "us". -/
theorem c4_alias_replacement :
    (∀ (v std t : List Char), '.' ∈ v → (∀ c ∈ t, c ≠ '.') → subAll v std t = t) ∧
    (∀ (s : List Char), ∀ c ∈ (trimWs (s.map toLowerCh)).map stripCh, c ≠ '.') ∧
    normalize (cl "united states election") = cl "us election" ∧
    normalize (cl "usa election") = cl "us election" ∧
    normalize (cl "u.s. election") = cl "u s election" ∧
    normalize (cl "u.s.") = cl "u s" := by
  refine ⟨?_, ?_, by decide, by decide, by decide, by decide⟩
  · intro v std t hv ht
    exact subAux_eq_of_not_mem v std '.' hv t none ht
  · intro s c hc
    rw [List.mem_map] at hc
    obtain ⟨x, _, hx⟩ := hc
    exact hx ▸ stripCh_ne_dot x

/-- Witness for the amended C4: the dead pattern "u.s." leaves a stripped
text unchanged. -/
theorem c4_alias_replacement_witness :
    subAll (cl "u.s.") (cl "us") (cl "u s election") = cl "u s election" :=
  c4_alias_replacement.1 (cl "u.s.") (cl "us") (cl "u s election") (by decide) (by decide)

/-- Counterexample to claim C4 as stated: the input "u.s." (the whole word
itself) does not normalize to the canonical token "us"; its normalized form
is "u s", whose word list is ["u", "s"] and does not contain "us". -/
theorem c4_counterexample :
    normalize (cl "u.s.") = cl "u s" ∧
    splitWs (normalize (cl "u.s.")) = [cl "u", cl "s"] ∧
    cl "us" ∉ splitWs (normalize (cl "u.s.")) := by
  refine ⟨by decide, by decide, by decide⟩

/-- A character already stable under both lowering and stripping; every
character of a normalized text has this property. -/
def CharOK (c : Char) : Prop := toLowerCh c = c ∧ stripCh c = c

instance instDecidableCharOK (c : Char) : Decidable (CharOK c) :=
  inferInstanceAs (Decidable (toLowerCh c = c ∧ stripCh c = c))

/-- Lowering an uppercase code point lands on a valid code point 32 above. -/
theorem toLowerCh_toNat (c : Char) (h1 : 65 ≤ c.toNat) (h2 : c.toNat ≤ 90) :
    (Char.ofNat (c.toNat + 32)).toNat = c.toNat + 32 := by
  have hv : Nat.isValidChar (c.toNat + 32) := by
    left
    omega
  simp [Char.ofNat, hv]
  rfl

/-- Lowering is idempotent: lowered characters are not uppercase. -/
theorem toLowerCh_idem (c : Char) : toLowerCh (toLowerCh c) = toLowerCh c := by
  unfold toLowerCh
  by_cases h : 65 ≤ c.toNat ∧ c.toNat ≤ 90
  · rw [if_pos h, if_neg ?_]
    intro hcon
    rw [toLowerCh_toNat c h.1 h.2] at hcon
    omega
  · rw [if_neg h, if_neg h]

/-- `stripCh` keeps the character or yields a space. -/
theorem stripCh_cases (c : Char) : stripCh c = c ∨ stripCh c = spc := by
  unfold stripCh
  split
  · exact Or.inl rfl
  · exact Or.inr rfl

/-- Stripping is idempotent. -/
theorem stripCh_idem (c : Char) : stripCh (stripCh c) = stripCh c := by
  rcases stripCh_cases c with h | h
  · rw [h]
    exact h
  · rw [h]
    decide

/-- The space character is stable. -/
theorem charOK_spc : CharOK spc := by
  constructor <;> decide

/-- A stripped lowered character is stable. -/
theorem charOK_strip_lower (x : Char) : CharOK (stripCh (toLowerCh x)) := by
  rcases stripCh_cases (toLowerCh x) with h | h
  · rw [h]
    exact ⟨toLowerCh_idem x, by rw [← h]; exact stripCh_idem _⟩
  · rw [h]
    exact charOK_spc

/-- Characters survive `trimWs` only from the original text. -/
theorem mem_trimWs {c : Char} {t : List Char} (h : c ∈ trimWs t) : c ∈ t := by
  unfold trimWs at h
  rw [List.mem_reverse] at h
  have h2 := (List.dropWhile_sublist isWsChar).mem h
  rw [List.mem_reverse] at h2
  exact (List.dropWhile_sublist isWsChar).mem h2

/-- Characters of a substitution output come from the replacement string or
the original text. -/
theorem mem_subAux (v std : List Char) :
    ∀ (t : List Char) (k : Nat) (prev : Option Char) (c : Char),
      c ∈ subAux v std k prev t → c ∈ std ∨ c ∈ t := by
  intro t
  induction t with
  | nil =>
    intro k prev c h
    cases k <;> simp [subAux] at h
  | cons x cs ih =>
    intro k prev c h
    cases k with
    | succ skip =>
      simp only [subAux] at h
      rcases ih skip (some x) c h with h' | h'
      · exact Or.inl h'
      · exact Or.inr (List.mem_cons_of_mem _ h')
    | zero =>
      simp only [subAux] at h
      split at h
      · rcases List.mem_append.mp h with h' | h'
        · exact Or.inl h'
        rcases ih _ (some x) c h' with h'' | h''
        · exact Or.inl h''
        · exact Or.inr (List.mem_cons_of_mem _ h'')
      · rcases List.mem_cons.mp h with h' | h'
        · exact Or.inr (h' ▸ List.mem_cons_self _ _)
        rcases ih 0 (some x) c h' with h'' | h''
        · exact Or.inl h''
        · exact Or.inr (List.mem_cons_of_mem _ h'')

/-- Characters of the alias fold come from the text or some standard. -/
theorem mem_foldl_subAll (c : Char) :
    ∀ (ps : List (List Char × List Char)) (t : List Char),
      c ∈ ps.foldl (fun acc p => subAll p.1 p.2 acc) t →
      c ∈ t ∨ ∃ p ∈ ps, c ∈ p.2 := by
  intro ps
  induction ps with
  | nil => intro t h; exact Or.inl h
  | cons p rest ih =>
    intro t h
    rw [List.foldl_cons] at h
    rcases ih _ h with h' | ⟨q, hq, hcq⟩
    · rcases mem_subAux p.1 p.2 t 0 none c h' with h'' | h''
      · exact Or.inr ⟨p, List.mem_cons_self _ _, h''⟩
      · exact Or.inl h''
    · exact Or.inr ⟨q, List.mem_cons_of_mem _ hq, hcq⟩

/-- Characters of a split token come from the accumulator or the text. -/
theorem mem_splitWsGo (c : Char) :
    ∀ (t cur w : List Char), w ∈ splitWsGo cur t → c ∈ w → c ∈ cur ∨ c ∈ t := by
  intro t
  induction t with
  | nil =>
    intro cur w hw hc
    simp only [splitWsGo] at hw
    split at hw
    · simp at hw
    · rw [List.mem_singleton] at hw
      subst hw
      exact Or.inl (List.mem_reverse.mp hc)
  | cons x cs ih =>
    intro cur w hw hc
    simp only [splitWsGo] at hw
    split at hw
    · split at hw
      · rcases ih [] w hw hc with h | h
        · simp at h
        · exact Or.inr (List.mem_cons_of_mem _ h)
      · rcases List.mem_cons.mp hw with h | h
        · subst h
          exact Or.inl (List.mem_reverse.mp hc)
        rcases ih [] w h hc with h' | h'
        · simp at h'
        · exact Or.inr (List.mem_cons_of_mem _ h')
    · rcases ih (x :: cur) w hw hc with h | h
      · rcases List.mem_cons.mp h with h' | h'
        · exact Or.inr (h' ▸ List.mem_cons_self _ _)
        · exact Or.inl h'
      · exact Or.inr (List.mem_cons_of_mem _ h)

/-- Characters of a joined word list come from some word or are the space. -/
theorem mem_joinSpace (c : Char) :
    ∀ ws : List (List Char), c ∈ joinSpace ws → (∃ w ∈ ws, c ∈ w) ∨ c = spc := by
  intro ws
  induction ws with
  | nil => intro h; simp [joinSpace] at h
  | cons w rest ih =>
    intro h
    cases rest with
    | nil => exact Or.inl ⟨w, List.mem_cons_self _ _, by simpa [joinSpace] using h⟩
    | cons w2 rest2 =>
      simp only [joinSpace] at h
      rcases List.mem_append.mp h with h' | h'
      · exact Or.inl ⟨w, List.mem_cons_self _ _, h'⟩
      rcases List.mem_cons.mp h' with h'' | h''
      · exact Or.inr h''
      rcases ih h'' with ⟨w3, hw3, hcw3⟩ | h3
      · exact Or.inl ⟨w3, List.mem_cons_of_mem _ hw3, hcw3⟩
      · exact Or.inr h3

/-- Characters of a collapsed text come from the text or are the space. -/
theorem mem_collapseGo (c : Char) :
    ∀ (t : List Char) (b : Bool), c ∈ collapseGo b t → c ∈ t ∨ c = spc := by
  intro t
  induction t with
  | nil => intro b h; simp [collapseGo] at h
  | cons x cs ih =>
    intro b h
    simp only [collapseGo] at h
    split at h
    · split at h
      · rcases ih true h with h' | h'
        · exact Or.inl (List.mem_cons_of_mem _ h')
        · exact Or.inr h'
      · rcases List.mem_cons.mp h with h' | h'
        · exact Or.inr h'
        rcases ih true h' with h'' | h''
        · exact Or.inl (List.mem_cons_of_mem _ h'')
        · exact Or.inr h''
    · rcases List.mem_cons.mp h with h' | h'
      · exact Or.inl (h' ▸ List.mem_cons_self _ _)
      rcases ih false h' with h'' | h''
      · exact Or.inl (List.mem_cons_of_mem _ h'')
      · exact Or.inr h''

/-- Every character of a normalized text is stable under lowering and
stripping: it is a stripped lowered input character, an alias-standard
character, or a space. -/
theorem charOK_normalize (s : List Char) : ∀ c ∈ normalize s, CharOK c := by
  intro c hc
  simp only [normalize] at hc
  have hc1 := mem_trimWs hc
  rcases mem_collapseGo c _ false hc1 with hc2 | hspc
  · rcases mem_joinSpace c _ hc2 with ⟨w, hw, hcw⟩ | hspc
    · rw [List.mem_filter] at hw
      rcases mem_splitWsGo c _ [] w hw.1 hcw with h | h
      · simp at h
      rcases mem_foldl_subAll c aliasPairs _ h with h2 | ⟨p, hp, hcp⟩
      · rw [List.mem_map] at h2
        obtain ⟨x, hx, hx2⟩ := h2
        rcases List.mem_map.mp (mem_trimWs hx) with ⟨y, _, hy2⟩
        rw [← hx2, ← hy2]
        exact charOK_strip_lower y
      · have hstd : ∀ p ∈ aliasPairs, ∀ c ∈ p.2, CharOK c := by decide
        exact hstd p hp c hcp
    · exact hspc ▸ charOK_spc
  · exact hspc ▸ charOK_spc

/-- Tokens produced by the splitter are nonempty and whitespace-free. -/
theorem splitWsGo_tokens :
    ∀ (t cur : List Char), (∀ c ∈ cur, isWsChar c = false) →
      ∀ w ∈ splitWsGo cur t, w ≠ [] ∧ ∀ c ∈ w, isWsChar c = false := by
  intro t
  induction t with
  | nil =>
    intro cur hcur w hw
    simp only [splitWsGo] at hw
    split at hw
    · simp at hw
    · rename_i hne
      rw [List.mem_singleton] at hw
      subst hw
      refine ⟨?_, fun c hc => hcur c (List.mem_reverse.mp hc)⟩
      intro hrev
      exact hne (by rw [List.isEmpty_iff]; exact List.reverse_eq_nil_iff.mp hrev)
  | cons x cs ih =>
    intro cur hcur w hw
    simp only [splitWsGo] at hw
    split at hw
    · split at hw
      · exact ih [] (by simp) w hw
      · rename_i hne
        rcases List.mem_cons.mp hw with h | h
        · subst h
          refine ⟨?_, fun c hc => hcur c (List.mem_reverse.mp hc)⟩
          intro hrev
          exact hne (by rw [List.isEmpty_iff]; exact List.reverse_eq_nil_iff.mp hrev)
        · exact ih [] (by simp) w h
    · rename_i hx
      refine ih (x :: cur) ?_ w hw
      intro c hc
      rcases List.mem_cons.mp hc with h | h
      · subst h
        simpa using hx
      · exact hcur c h

/-- Splitting walks through a whitespace-free chunk, accumulating it. -/
theorem splitWsGo_append :
    ∀ (w : List Char), (∀ c ∈ w, isWsChar c = false) →
      ∀ (cur r : List Char), splitWsGo cur (w ++ r) = splitWsGo (w.reverse ++ cur) r := by
  intro w
  induction w with
  | nil => intro _ cur r; simp
  | cons x xs ih =>
    intro hw cur r
    have hx : isWsChar x = false := hw x (List.mem_cons_self _ _)
    simp only [List.cons_append, splitWsGo, hx, Bool.false_eq_true, if_false]
    show splitWsGo (x :: cur) (xs ++ r) = splitWsGo ((x :: xs).reverse ++ cur) r
    rw [ih (fun c hc => hw c (List.mem_cons_of_mem _ hc)) (x :: cur) r]
    congr 1
    simp

/-- For nonempty whitespace-free tokens, splitting inverts joining. -/
theorem splitWs_joinSpace :
    ∀ ws : List (List Char),
      (∀ w ∈ ws, w ≠ [] ∧ ∀ c ∈ w, isWsChar c = false) →
      splitWs (joinSpace ws) = ws := by
  intro ws
  induction ws with
  | nil => intro _; rfl
  | cons w rest ih =>
    intro h
    obtain ⟨hne, hok⟩ := h w (List.mem_cons_self _ _)
    have hcur : ¬(w.reverse.isEmpty = true) := by
      simpa [List.isEmpty_iff, List.reverse_eq_nil_iff] using hne
    cases rest with
    | nil =>
      show splitWsGo [] (joinSpace [w]) = [w]
      have hj : joinSpace [w] = w ++ [] := by simp [joinSpace]
      rw [hj, splitWsGo_append w hok [] []]
      simp only [splitWsGo, List.append_nil]
      rw [if_neg hcur, List.reverse_reverse]
    | cons w2 rest2 =>
      show splitWsGo [] (joinSpace (w :: w2 :: rest2)) = _
      have hj : joinSpace (w :: w2 :: rest2) = w ++ spc :: joinSpace (w2 :: rest2) := rfl
      rw [hj, splitWsGo_append w hok [] _, List.append_nil]
      simp only [splitWsGo]
      rw [if_pos (show isWsChar spc = true by decide), if_neg hcur, List.reverse_reverse]
      exact congrArg (w :: ·) (ih (fun w' hw' => h w' (List.mem_cons_of_mem _ hw')))

/-- The join of a nonempty first token starts with its head. -/
theorem joinSpace_head (w : List Char) (rest : List (List Char)) (hne : w ≠ []) :
    (joinSpace (w :: rest)).head? = w.head? := by
  cases rest with
  | nil => rfl
  | cons w2 rest2 =>
    show (w ++ spc :: joinSpace (w2 :: rest2)).head? = w.head?
    rw [List.head?_append]
    cases w with
    | nil => exact absurd rfl hne
    | cons x xs => rfl

/-- The join of a nonempty first token is nonempty. -/
theorem joinSpace_ne_nil (w : List Char) (rest : List (List Char)) (hne : w ≠ []) :
    joinSpace (w :: rest) ≠ [] := by
  intro hj
  have hh := joinSpace_head w rest hne
  rw [hj] at hh
  cases w with
  | nil => exact hne rfl
  | cons x xs => simp at hh

/-- Collapse is inert on a whitespace-free prefix. -/
theorem collapseGo_append :
    ∀ (w : List Char), (∀ c ∈ w, isWsChar c = false) →
      ∀ (b : Bool) (r : List Char),
        collapseGo b (w ++ r) = w ++ collapseGo (w.isEmpty && b) r := by
  intro w
  induction w with
  | nil => intro _ b r; simp
  | cons x xs ih =>
    intro hw b r
    have hx : isWsChar x = false := hw x (List.mem_cons_self _ _)
    simp only [List.cons_append, collapseGo, hx, Bool.false_eq_true, if_false]
    show x :: collapseGo false (xs ++ r) = x :: (xs ++ collapseGo ((x :: xs).isEmpty && b) r)
    rw [ih (fun c hc => hw c (List.mem_cons_of_mem _ hc)) false r]
    simp

/-- Starting a collapse in whitespace state makes no difference when the text
starts with a non-whitespace character. -/
theorem collapseGo_true_eq_false (t : List Char)
    (h : ∀ c ∈ t.head?, isWsChar c = false) : collapseGo true t = collapseGo false t := by
  cases t with
  | nil => rfl
  | cons x xs =>
    have hx : isWsChar x = false := h x rfl
    simp [collapseGo, hx]

/-- The head of a good token list's join is not whitespace. -/
theorem joinSpace_head_not_ws (w : List Char) (rest : List (List Char))
    (hne : w ≠ []) (hok : ∀ c ∈ w, isWsChar c = false) :
    ∀ c ∈ (joinSpace (w :: rest)).head?, isWsChar c = false := by
  intro c hc
  rw [joinSpace_head w rest hne] at hc
  cases w with
  | nil => exact absurd rfl hne
  | cons y ys =>
    have hcy : c = y := (by simpa using hc : y = c).symm
    subst hcy
    exact hok c (List.mem_cons_self _ _)

/-- Collapsing is a no-op on good tokens joined with single spaces. -/
theorem collapseWs_joinSpace :
    ∀ ws : List (List Char),
      (∀ w ∈ ws, w ≠ [] ∧ ∀ c ∈ w, isWsChar c = false) →
      collapseWs (joinSpace ws) = joinSpace ws := by
  intro ws
  induction ws with
  | nil => intro _; rfl
  | cons w rest ih =>
    intro h
    obtain ⟨hne, hok⟩ := h w (List.mem_cons_self _ _)
    cases rest with
    | nil =>
      show collapseGo false (joinSpace [w]) = joinSpace [w]
      have hj : joinSpace [w] = w ++ [] := by simp [joinSpace]
      rw [hj, collapseGo_append w hok false []]
      simp [collapseGo]
    | cons w2 rest2 =>
      obtain ⟨hne2, hok2⟩ := h w2 (List.mem_cons_of_mem _ (List.mem_cons_self _ _))
      show collapseGo false (joinSpace (w :: w2 :: rest2)) = _
      have hj : joinSpace (w :: w2 :: rest2) = w ++ spc :: joinSpace (w2 :: rest2) := rfl
      rw [hj, collapseGo_append w hok false _, Bool.and_false]
      simp only [collapseGo]
      rw [if_pos (show isWsChar spc = true by decide), if_neg (by decide : ¬(false = true))]
      rw [collapseGo_true_eq_false _ (joinSpace_head_not_ws w2 rest2 hne2 hok2)]
      exact congrArg (fun l => w ++ spc :: l)
        (ih (fun w' hw' => h w' (List.mem_cons_of_mem _ hw')))

/-- getLast? skips a cons when the tail is nonempty. -/
theorem getLast?_cons_ne (x : Char) (l : List Char) (h : l ≠ []) :
    (x :: l).getLast? = l.getLast? := by
  cases l with
  | nil => exact absurd rfl h
  | cons y ys => simp [List.getLast?_cons]

/-- The last character of a good token list's join is not whitespace. -/
theorem joinSpace_getLast_not_ws :
    ∀ (rest : List (List Char)) (w : List Char),
      (∀ w' ∈ w :: rest, w' ≠ [] ∧ ∀ c ∈ w', isWsChar c = false) →
      ∀ c, (joinSpace (w :: rest)).getLast? = some c → isWsChar c = false := by
  intro rest
  induction rest with
  | nil =>
    intro w h c hc
    obtain ⟨_, hok⟩ := h w (List.mem_cons_self _ _)
    exact hok c (List.mem_of_getLast?_eq_some hc)
  | cons w2 rest2 ih =>
    intro w h c hc
    obtain ⟨hne2, _⟩ := h w2 (List.mem_cons_of_mem _ (List.mem_cons_self _ _))
    have hne3 : joinSpace (w2 :: rest2) ≠ [] := joinSpace_ne_nil w2 rest2 hne2
    have hj : joinSpace (w :: w2 :: rest2) = w ++ spc :: joinSpace (w2 :: rest2) := rfl
    rw [hj, List.getLast?_append,
      getLast?_cons_ne spc _ hne3] at hc
    cases hgl : (joinSpace (w2 :: rest2)).getLast? with
    | none => exact absurd (List.getLast?_eq_none_iff.mp hgl) hne3
    | some c2 =>
      rw [hgl] at hc
      have hcc : c2 = c := by simpa using hc
      subst hcc
      exact ih w2 (fun w' hw' => h w' (List.mem_cons_of_mem _ hw')) c2 hgl

/-- Text with non-whitespace head and last character is trim-stable. -/
theorem trimWs_eq_self (t : List Char)
    (hh : ∀ c ∈ t.head?, isWsChar c = false)
    (hl : ∀ c ∈ t.getLast?, isWsChar c = false) : trimWs t = t := by
  unfold trimWs
  have h1 : t.dropWhile isWsChar = t := by
    cases t with
    | nil => rfl
    | cons x xs =>
      rw [List.dropWhile_cons]
      simp [hh x rfl]
  rw [h1]
  have h2 : t.reverse.dropWhile isWsChar = t.reverse := by
    cases ht : t.reverse with
    | nil => rfl
    | cons y ys =>
      have hy : t.getLast? = some y := by rw [← List.head?_reverse, ht]; rfl
      rw [List.dropWhile_cons]
      simp [hl y hy]
  rw [h2, List.reverse_reverse]

/-- Good tokens joined need no trimming. -/
theorem trimWs_joinSpace :
    ∀ ws : List (List Char),
      (∀ w ∈ ws, w ≠ [] ∧ ∀ c ∈ w, isWsChar c = false) →
      trimWs (joinSpace ws) = joinSpace ws := by
  intro ws h
  cases ws with
  | nil => rfl
  | cons w rest =>
    obtain ⟨hne, hok⟩ := h w (List.mem_cons_self _ _)
    exact trimWs_eq_self _ (joinSpace_head_not_ws w rest hne hok)
      (fun c hc => joinSpace_getLast_not_ws rest w h c hc)

/-- The definition of `normalize`, with the let bindings inlined. -/
theorem normalize_def (x : List Char) :
    normalize x =
      trimWs (collapseWs (joinSpace
        ((splitWs (applyAliases ((trimWs (x.map toLowerCh)).map stripCh))).filter keepWord))) :=
  rfl

/-- The token list built inside `normalize` is made of good tokens. -/
theorem normalize_tokens (x : List Char) :
    ∀ w ∈ (splitWs (applyAliases ((trimWs (x.map toLowerCh)).map stripCh))).filter keepWord,
      w ≠ [] ∧ ∀ c ∈ w, isWsChar c = false :=
  fun w hw => splitWsGo_tokens _ [] (by simp) w (List.mem_filter.mp hw).1

/-- A normalized text is exactly the single-space join of its token list:
the final collapse and trim of `normalize` are no-ops. -/
theorem normalize_eq_joinSpace (x : List Char) :
    normalize x = joinSpace
      ((splitWs (applyAliases ((trimWs (x.map toLowerCh)).map stripCh))).filter keepWord) := by
  rw [normalize_def, collapseWs_joinSpace _ (normalize_tokens x),
    trimWs_joinSpace _ (normalize_tokens x)]

/-- Mapping a function that fixes every member is the identity. -/
theorem map_eq_self_of_mem {f : Char → Char} :
    ∀ l : List Char, (∀ c ∈ l, f c = c) → l.map f = l := by
  intro l
  induction l with
  | nil => intro _; rfl
  | cons x xs ih =>
    intro h
    rw [List.map_cons, h x (List.mem_cons_self _ _),
      ih (fun c hc => h c (List.mem_cons_of_mem _ hc))]

/-- The stopword filter is idempotent. -/
theorem filter_keepWord_idem (l : List (List Char)) :
    (l.filter keepWord).filter keepWord = l.filter keepWord := by
  rw [List.filter_filter]
  simp only [Bool.and_self]

/-- Counterexample to claim C3: `normalize` is not idempotent.  The alias
pass on "donald donald trump" rewrites only the second "donald trump"
occurrence, leaving "donald trump", which a second pass rewrites to
"trump". -/
theorem c3_counterexample :
    normalize (normalize (cl "donald donald trump")) ≠ normalize (cl "donald donald trump") ∧
    normalize (cl "donald donald trump") = cl "donald trump" ∧
    normalize (normalize (cl "donald donald trump")) = cl "trump" := by
  refine ⟨by decide, by decide, by decide⟩

/-- Claim C3 as amended: `normalize` is idempotent on exactly those inputs
whose normalized form is stable under one more alias-replacement pass; the
only source of non-idempotence is an alias replacement whose output
reconstitutes an alias occurrence (as in the counterexample), since
lowering, stripping, stopword filtering and whitespace handling are all
stable on normalized output. -/
theorem c3_normalize_conditional_idem (s : List Char)
    (h : applyAliases (normalize s) = normalize s) :
    normalize (normalize s) = normalize s := by
  have htok := normalize_tokens s
  have hOK := charOK_normalize s
  have hrepr := normalize_eq_joinSpace s
  have hmapl : (normalize s).map toLowerCh = normalize s :=
    map_eq_self_of_mem _ (fun c hc => (hOK c hc).1)
  have hmaps : (normalize s).map stripCh = normalize s :=
    map_eq_self_of_mem _ (fun c hc => (hOK c hc).2)
  have htrim : trimWs (normalize s) = normalize s := by
    rw [hrepr]
    exact trimWs_joinSpace _ htok
  have hsplit : splitWs (normalize s) =
      (splitWs (applyAliases ((trimWs (s.map toLowerCh)).map stripCh))).filter keepWord := by
    rw [hrepr]
    exact splitWs_joinSpace _ htok
  rw [normalize_def (normalize s), hmapl, htrim, hmaps, h, hsplit, filter_keepWord_idem,
    collapseWs_joinSpace _ htok, trimWs_joinSpace _ htok, ← hrepr]

/-- Witness for the amended C3: a question whose normalization is
alias-stable, hence idempotent. -/
theorem c3_normalize_conditional_idem_witness :
    normalize (normalize (cl "Will Trump win in June 2025?")) =
      normalize (cl "Will Trump win in June 2025?") :=
  c3_normalize_conditional_idem _ (by decide)

end ArbBot
